import Mathlib

/-!
Verification of the Linen module registry and event bus
(SaxonRah/Linen, FlaxLinen plugins).

The registry model follows `Plugins/LinenFlax/Source/LinenFlax/Linen.cpp` and
`Linen.h`; the event-bus model follows `Plugins/Linen/Source/Linen/EventSystem.h`.

Modelling conventions:
* `std::unordered_map` / `std::unordered_set` are modelled as association
  lists / lists in some fixed iteration order (the C++ iteration order is
  unspecified; the list order stands for one such order).
* `operator[]` on `m_registeredSystems` with an unregistered key
  default-constructs a null `unique_ptr`; the immediate dereference is
  undefined behaviour, modelled as `Except.error ()`.
* Recursion over the dependency graph is modelled with fuel; the chosen fuel
  (`reg.length + 1`) is shown adequate where theorems need it.
* `std::priority_queue` is modelled as the list of its elements in arrival
  order; `top()/pop()` extract an element of maximal priority (the standard
  leaves the choice among equal keys open; the model takes the earliest).
* Handler invocations are recorded as trace entries tagged with whether the
  bus mutex is held at the call, mirroring the `std::lock_guard` scopes of
  the source.
-/

namespace Linen

/-- A registered system as the registry sees it: its `GetName()` and the
iteration of its `GetDependencies()` set (from `RPGSystem.h`, an
`std::unordered_set<std::string>`, modelled as a list in iteration order). -/
structure RPGSystem where
  name : String
  deps : List String
deriving DecidableEq, Repr

/-- `m_registeredSystems` : `std::unordered_map<std::string, unique_ptr<RPGSystem>>`,
modelled as a list of systems in map-iteration order (names pairwise distinct
in reachable states). -/
abbrev Registry := List RPGSystem

/-- The set of registered names. -/
def regNames (reg : Registry) : List String := reg.map (·.name)

/-- `m_registeredSystems.find(n)` — the checked lookup. -/
def findSystem (reg : Registry) (n : String) : Option RPGSystem :=
  reg.find? (fun s => s.name == n)

/-- The dependency loop body of `Linen::DetectCycle` (Linen.cpp lines 79-81):
runs `f` (the recursive call at the next fuel level) over each dependency in
turn, threading the mutated `visited` set, and short-circuits with `true` as
soon as a cycle is reported. -/
def detectCycleStep
    (f : String → List String → List String → Except Unit (Bool × List String)) :
    List String → List String → List String → Except Unit (Bool × List String)
  | [], visited, _ => .ok (false, visited)
  | d :: ds, visited, recStack => do
    let (b, v') ← f d visited recStack
    if b then pure (true, v') else detectCycleStep f ds v' recStack

/-- `Linen::DetectCycle` (Linen.cpp lines 70-85).  Returns `true` when the name
is on the recursion stack, `false` when already visited; otherwise inserts the
name into `visited` and the recursion stack and recurses over
`m_registeredSystems[systemName]->GetDependencies()`.  The `operator[]` lookup
of an unregistered name default-constructs a null `unique_ptr` and dereferences
it — undefined behaviour, modelled as `Except.error ()`.  The recursion stack
is net-unchanged on every `false` return (the source erases the name before
returning), so it is passed down and not returned.  Fuel exhaustion is also
mapped to `Except.error ()`; the fuel `reg.length + 1` is proved adequate
below for registries whose dependency names are all registered. -/
def DetectCycle (reg : Registry) :
    Nat → String → List String → List String → Except Unit (Bool × List String)
  | 0, _, _, _ => .error ()
  | fuel + 1, n, visited, recStack =>
    if n ∈ recStack then .ok (true, visited)
    else if n ∈ visited then .ok (false, visited)
    else
      match findSystem reg n with
      | none => .error ()
      | some s => detectCycleStep (DetectCycle reg fuel) s.deps (n :: visited) (n :: recStack)

/-- The first loop of `Linen::CalculateInitializationOrder` (Linen.cpp lines
95-100): run `DetectCycle` from every registered system, threading the shared
`visited` set, and abort with `true` on the first detected cycle.  The shared
`recursionStack` is empty at the start of each iteration (it is net-unchanged
by any completed `DetectCycle` call). -/
def detectPhase (reg : Registry) :
    List RPGSystem → List String → Except Unit (Bool × List String)
  | [], visited => .ok (false, visited)
  | s :: rest, visited => do
    let (b, v') ← DetectCycle reg (reg.length + 1) s.name visited []
    if b then pure (true, v') else detectPhase reg rest v'

/-- The dependency loop of the `visit` lambda (Linen.cpp lines 116-118):
fold `f` (the recursive `visit` at the next fuel level) over the dependencies,
threading `visited` and the order list. -/
def visitFold
    (f : String → List String → List String → List String → List String × List String) :
    List String → List String → List String → List String → List String × List String
  | [], _, visited, order => (visited, order)
  | d :: ds, inProg, visited, order =>
    let (v', o') := f d inProg visited order
    visitFold f ds inProg v' o'

/-- The `visit` lambda of `Linen::CalculateInitializationOrder` (Linen.cpp
lines 102-124): return unchanged when the name is in `inProgress` (logged
circular dependency) or already in `visited`; otherwise mark in-progress,
visit the dependencies of the system when the checked `find` succeeds, then
unmark, insert into `visited` and append the name to the order (post-order). -/
def visit (reg : Registry) :
    Nat → String → List String → List String → List String → List String × List String
  | 0, _, _, visited, order => (visited, order)
  | fuel + 1, n, inProg, visited, order =>
    if n ∈ inProg then (visited, order)
    else if n ∈ visited then (visited, order)
    else
      let (v', o') :=
        match findSystem reg n with
        | some s => visitFold (visit reg fuel) s.deps (n :: inProg) visited order
        | none => (visited, order)
      (n :: v', o' ++ [n])

/-- The second loop of `Linen::CalculateInitializationOrder` (Linen.cpp lines
127-129): call `visit` on every registered system.  `inProgress` is empty at
each top-level call (`visit` is net-unchanged on it), while `visited` and the
order list thread through. -/
def visitPhase (reg : Registry) :
    List RPGSystem → List String → List String → List String × List String
  | [], visited, order => (visited, order)
  | s :: rest, visited, order =>
    let (v', o') := visit reg (reg.length + 1) s.name [] visited order
    visitPhase reg rest v' o'

/-- `Linen::CalculateInitializationOrder` (Linen.cpp lines 87-130).  Clears
`m_initializationOrder`, then runs cycle detection over every registered
system; on a cycle it returns with the cleared (empty) order.  Otherwise it
runs the topological `visit` loop — sharing the SAME `visited` set the cycle
detection already filled, exactly as the source does — and returns the order
the `visit` loop built.  `Except.error ()` models the undefined behaviour of
`DetectCycle`'s null dereference. -/
def CalculateInitializationOrder (reg : Registry) : Except Unit (List String) := do
  let (cyc, visited) ← detectPhase reg reg []
  if cyc then
    pure []
  else
    pure (visitPhase reg reg visited []).2

/-- Registry with `A` (no dependencies) and `B` (depends on `A`): acyclic,
every dependency registered. -/
def demoReg : Registry := [⟨"A", []⟩, ⟨"B", ["A"]⟩]

/-- The specification's requirement on the computed order (stated from the
spec's words, for comparison with the code): each registered module's name
occurs exactly once, and every dependency occurs strictly before its
dependent. -/
def SpecTopoOrder (reg : Registry) (order : List String) : Prop :=
  (∀ s ∈ reg, order.count s.name = 1) ∧
  (∀ s ∈ reg, ∀ d ∈ s.deps, order.indexOf d < order.indexOf s.name)

/-- Every dependency name of every registered system is itself registered
(the unchecked precondition of `DetectCycle`'s unchecked `operator[]`). -/
def ClosedDeps (reg : Registry) : Prop :=
  ∀ s ∈ reg, ∀ d ∈ s.deps, d ∈ regNames reg

/-- The registry-relevant state of the `Linen` plugin object (Linen.h lines
149-153): the registered systems, the names of the active systems
(`m_activeSystems`, keys of the map), and `m_initializationOrder`. -/
structure LinenState where
  m_registeredSystems : Registry
  m_activeSystems : List String
  m_initializationOrder : List String
deriving DecidableEq, Repr

/-- Running `CalculateInitializationOrder` on a state: the member
`m_initializationOrder` is replaced by whatever the computation produces
(the source clears it first and rebuilds it in place). -/
def recomputeOrder (st : LinenState) : Except Unit LinenState := do
  let o ← CalculateInitializationOrder st.m_registeredSystems
  pure { st with m_initializationOrder := o }

/-- A state whose registry has the 2-cycle `A ↔ B` and whose previously
computed initialization order is `["A"]`. -/
def cyclicSt : LinenState :=
  { m_registeredSystems := [⟨"A", ["B"]⟩, ⟨"B", ["A"]⟩]
    m_activeSystems := []
    m_initializationOrder := ["A"] }

/-- The fresh plugin state: nothing registered, nothing active, empty order. -/
def emptySt : LinenState :=
  { m_registeredSystems := [], m_activeSystems := [], m_initializationOrder := [] }

/-- `Linen::RegisterSystem` (Linen.h lines 164-190): fails (returns `false`)
when the name is already registered; otherwise stores the system (map insert,
modelled as append) and recomputes the initialization order.
`Except.error` propagates the undefined behaviour of the recomputation. -/
def RegisterSystem (st : LinenState) (s : RPGSystem) : Except Unit (LinenState × Bool) :=
  if s.name ∈ regNames st.m_registeredSystems then .ok (st, false)
  else do
    let reg' := st.m_registeredSystems ++ [s]
    let o ← CalculateInitializationOrder reg'
    pure ({ st with m_registeredSystems := reg', m_initializationOrder := o }, true)

/-- Map insert into `m_activeSystems`, modelled on the name list: a present
key is overwritten (no duplicate entry), an absent key is appended. -/
def addActive (active : List String) (n : String) : List String :=
  if n ∈ active then active else active ++ [n]

/-- The dependency loop of `Linen::LoadSystem` (Linen.h lines 222-236): for
each DIRECT dependency that is not yet active, call `Initialize()` on it and
mark it active when it is registered, and return `false` immediately when it
is not (`Missing dependency`).  Returns (new active set, return value, trace
of `Initialize()` calls so far).  Note the loop does NOT recurse into the
dependency's own dependencies. -/
def loadDepsLoop (reg : Registry) :
    List String → List String → List String → List String × Bool × List String
  | [], active, trace => (active, true, trace)
  | d :: ds, active, trace =>
    if d ∈ active then loadDepsLoop reg ds active trace
    else
      match findSystem reg d with
      | some _ => loadDepsLoop reg ds (addActive active d) (trace ++ [d])
      | none => (active, false, trace)

/-- `Linen::LoadSystem` (Linen.h lines 192-244), keyed by the system name
(`m_typeToName` maps the C++ type to exactly the registered name, so the
`m_typeToName` check and the `m_registeredSystems` check coincide on the name
being registered).  Already-active systems are a successful no-op with no
`Initialize()` call.  Otherwise the direct dependencies are initialized by the
loop above, and on its success the target itself is initialized and marked
active.  Result: (new active set, return value, `Initialize()` call trace). -/
def LoadSystem (reg : Registry) (active : List String) (name : String) :
    List String × Bool × List String :=
  if name ∉ regNames reg then (active, false, [])
  else if name ∈ active then (active, true, [])
  else
    match findSystem reg name with
    | none => (active, false, [])
    | some s =>
      let (a', ok, tr) := loadDepsLoop reg s.deps active []
      if ok then (addActive a' name, true, tr ++ [name]) else (a', false, tr)

/-- The dependent-systems loop of `Linen::UnloadSystem` (Linen.h lines
268-275): for each active system, look its descriptor up with
`m_registeredSystems[pair.first]` (`operator[]` — an unregistered active name
dereferences a null `unique_ptr`, modelled as `Except.error ()`) and report
`true` when it lists `name` among its dependencies. -/
def dependentCheck (reg : Registry) : List String → String → Except Unit Bool
  | [], _ => .ok false
  | a :: rest, name =>
    match findSystem reg a with
    | none => .error ()
    | some s => if name ∈ s.deps then .ok true else dependentCheck reg rest name

/-- `Linen::UnloadSystem` (Linen.h lines 246-283), keyed by the system name.
Unregistered: returns `false`.  Not active: successful no-op (`true`), with NO
dependent check.  Active: fails when some active system lists the name as a
dependency, otherwise calls `Shutdown()` and erases the entry.  Result:
(new active set, return value, whether `Shutdown()` was invoked). -/
def UnloadSystem (reg : Registry) (active : List String) (name : String) :
    Except Unit (List String × Bool × Bool) :=
  if name ∉ regNames reg then .ok (active, false, false)
  else if name ∉ active then .ok (active, true, false)
  else do
    let dep ← dependentCheck reg active name
    if dep then pure (active, false, false)
    else
      match findSystem reg name with
      | none => .error ()
      | some _ => pure (active.erase name, true, true)

/-- Registry with a dependency chain `C → B → A`. -/
def transReg : Registry := [⟨"A", []⟩, ⟨"B", ["A"]⟩, ⟨"C", ["B"]⟩]

/-- Number of registered names not yet in the visited set: the termination
measure of `DetectCycle`'s recursion, used to prove the fuel adequate. -/
def unvis (reg : Registry) (v : List String) : Nat :=
  ((regNames reg).filter (fun x => decide (x ∉ v))).length

/-- One observable step of `Linen::Update` (Linen.cpp lines 60-68): either a
`Update(deltaTime)` call on a named system, or the single
`m_eventSystem.ProcessEvents()` drain. -/
inductive TickCall (α : Type) where
  | updateCall : String → α → TickCall α
  | processEventsCall : TickCall α
deriving DecidableEq, Repr

/-- `Linen::Update` (Linen.cpp lines 60-68) as its trace of calls: it invokes
`Update(deltaTime)` on the three hard-coded singleton systems (`TestSystem`,
`CharacterProgressionSystem`, `QuestSystem`) in that fixed source order —
ignoring the registry state entirely, which is why the state argument is
unused — and then drains the event bus once. -/
def LinenUpdate {α : Type} (_st : LinenState) (dt : α) : List (TickCall α) :=
  [.updateCall "TestSystem" dt,
   .updateCall "CharacterProgressionSystem" dt,
   .updateCall "QuestSystem" dt,
   .processEventsCall]

/-- The trace the specification describes (stated from the spec's words, for
comparison): `Update(deltaTime)` on every ACTIVE module in the computed
initialization order, then one drain of the event bus. -/
def specUpdateTrace {α : Type} (st : LinenState) (dt : α) : List (TickCall α) :=
  (st.m_initializationOrder.filter (fun n => decide (n ∈ st.m_activeSystems))).map
    (fun n => .updateCall n dt) ++ [.processEventsCall]

end Linen

namespace EventSystem

/-- `std::type_index` of an event type (the template parameter `T`). -/
abbrev TypeTag := Nat

/-- Identity of a subscribed handler (`shared_ptr<EventHandlerBase>`). -/
abbrev HandlerId := Nat

/-- A queued event (`EventSystem::QueuedEvent`, EventSystem.h lines 162-177):
the owned payload copy, its type tag, the priority stamped by `Publish`
(`EventPriority`: Low = 0, Normal = 1, High = 2, Critical = 3) and the filter
string it was published with. -/
structure QueuedEvent where
  payload : Nat
  type : TypeTag
  priority : Nat
  filter : String
deriving DecidableEq, Repr

/-- Lookup of a bucket in one of the handler maps; a missing key is the empty
bucket (the source guards each access with `find`). -/
def getB {κ : Type} [DecidableEq κ] : List (κ × List HandlerId) → κ → List HandlerId
  | [], _ => []
  | (k, hs) :: rest, q => if k = q then hs else getB rest q

/-- `bucket[k].push_back(h)` on an association-list map: append to the
existing bucket, or create a singleton bucket for a new key. -/
def addB {κ : Type} [DecidableEq κ] :
    List (κ × List HandlerId) → κ → HandlerId → List (κ × List HandlerId)
  | [], q, h => [(q, [h])]
  | (k, hs) :: rest, q, h =>
    if k = q then (k, hs ++ [h]) :: rest else (k, hs) :: addB rest q h

/-- The bus state (EventSystem.h lines 179-185): the per-type global buckets
`m_handlers`, the per-type-per-filter buckets `m_filteredHandlers`, and the
pending `m_eventQueue` (priority-queue contents in arrival order). -/
structure State where
  handlers : List (TypeTag × List HandlerId)
  filteredHandlers : List ((TypeTag × String) × List HandlerId)
  eventQueue : List QueuedEvent
deriving DecidableEq, Repr

/-- The bus with no subscriptions and an empty queue. -/
def emptyBus : State := { handlers := [], filteredHandlers := [], eventQueue := [] }

/-- `EventSystem::Subscribe` (EventSystem.h lines 65-80): with an empty filter
the handler goes into the type's global bucket; with a non-empty filter it
goes into the type+filter bucket — one or the other, never both. -/
def Subscribe (st : State) (t : TypeTag) (filter : String) (h : HandlerId) : State :=
  if filter = "" then { st with handlers := addB st.handlers t h }
  else { st with filteredHandlers := addB st.filteredHandlers (t, filter) h }

/-- `EventSystem::Publish` (EventSystem.h lines 82-97): stamps the priority on
a copy of the event and pushes it onto the pending queue; no handler runs. -/
def Publish (st : State) (payload : Nat) (t : TypeTag) (filter : String)
    (priority : Nat) : State :=
  { st with eventQueue := st.eventQueue ++ [⟨payload, t, priority, filter⟩] }

/-- The handlers a delivery of `(t, filter)` runs, in order: the whole global
bucket for the type, then — only when the filter is non-empty — the
type+filter bucket (EventSystem.h lines 109-122 and 144-157). -/
def handlersFor (st : State) (t : TypeTag) (filter : String) : List HandlerId :=
  getB st.handlers t ++ (if filter = "" then [] else getB st.filteredHandlers (t, filter))

/-- One recorded handler invocation: which handler ran, on which event value,
and whether `m_mutex` was held by the invoking bus function at the call. -/
structure Invocation where
  handler : HandlerId
  event : QueuedEvent
  lockHeld : Bool
deriving DecidableEq, Repr

/-- `EventSystem::PublishImmediate` (EventSystem.h lines 99-123): runs the
global bucket and then (for a non-empty filter) the filtered bucket
synchronously.  The whole body executes under `std::lock_guard` on `m_mutex`,
so every invocation is recorded with the lock HELD. -/
def PublishImmediate (st : State) (payload : Nat) (t : TypeTag) (priority : Nat)
    (filter : String) : List Invocation :=
  (handlersFor st t filter).map (fun h => ⟨h, ⟨payload, t, priority, filter⟩, true⟩)

/-- `top()/pop()` of `std::priority_queue<QueuedEvent>` with
`operator<` comparing priorities (EventSystem.h lines 173-176): extract an
element of maximal priority (the earliest among equals in this model),
preserving the order of the rest. -/
def popMax : List QueuedEvent → Option (QueuedEvent × List QueuedEvent)
  | [] => none
  | e :: es =>
    match popMax es with
    | none => some (e, [])
    | some (m, rest) =>
      if e.priority < m.priority then some (m, e :: rest) else some (e, es)

/-- The detach loop of `EventSystem::ProcessEvents` (EventSystem.h lines
131-135): pop the pending queue into the processing batch until empty.  Fuel
is the queue length, which is exactly the number of pops. -/
def drainGo : Nat → List QueuedEvent → List QueuedEvent
  | 0, _ => []
  | fuel + 1, q =>
    match popMax q with
    | none => []
    | some (e, rest) => e :: drainGo fuel rest

/-- The full processing batch: the queue contents in pop (priority) order. -/
def drainQueue (q : List QueuedEvent) : List QueuedEvent := drainGo q.length q

/-- Delivery of one batched event (EventSystem.h lines 139-158): run the
global-then-filtered handlers on it — with the mutex NOT held (the lock guard
closed before the loop) — and collect the events those handlers publish back
into the bus (`pub h ev` is what handler `h` publishes when given `ev`). -/
def deliverEvent (st : State) (pub : HandlerId → QueuedEvent → List QueuedEvent)
    (ev : QueuedEvent) : List Invocation × List QueuedEvent :=
  ((handlersFor st ev.type ev.filter).map (fun h => ⟨h, ev, false⟩),
   (handlersFor st ev.type ev.filter).flatMap (fun h => pub h ev))

/-- The delivery loop over the detached batch, accumulating the invocation
trace and the events published during the pass (which land in the — already
emptied — pending queue, in publish order). -/
def processBatch (st : State) (pub : HandlerId → QueuedEvent → List QueuedEvent) :
    List QueuedEvent → List Invocation × List QueuedEvent
  | [] => ([], [])
  | ev :: rest =>
    let (inv, newQ) := deliverEvent st pub ev
    let (invs, newQs) := processBatch st pub rest
    (inv ++ invs, newQ ++ newQs)

/-- `EventSystem::ProcessEvents` (EventSystem.h lines 125-159): detach the
whole pending queue under the lock (in priority order), then — without the
lock — deliver each detached event to its global-then-filtered handlers.
Events the handlers publish during the pass form the new pending queue; they
are not delivered in this pass.  Returns the invocation trace and the new
bus state. -/
def ProcessEvents (st : State) (pub : HandlerId → QueuedEvent → List QueuedEvent) :
    List Invocation × State :=
  let batch := drainQueue st.eventQueue
  let (invs, published) := processBatch st pub batch
  (invs, { st with eventQueue := published })

/-- Low-priority event. -/
def eLow : QueuedEvent := ⟨1, 0, 0, ""⟩
/-- Critical-priority event. -/
def eCrit : QueuedEvent := ⟨2, 0, 3, ""⟩
/-- Normal-priority event. -/
def eNorm : QueuedEvent := ⟨3, 0, 1, ""⟩

/-- A bus with one global subscriber for type 0 and one pending normal event. -/
def reentrySt : State :=
  { handlers := [(0, [0])], filteredHandlers := [], eventQueue := [⟨1, 0, 1, ""⟩] }

/-- Handler behaviour for the reentry scenario: on receiving the event with
payload 1, handler 0 publishes a fresh event with payload 2. -/
def reentryPub : HandlerId → QueuedEvent → List QueuedEvent :=
  fun _ ev => if ev.payload = 1 then [⟨2, 0, 1, ""⟩] else []

end EventSystem

namespace EventSystem

/-- Appending to a bucket puts the handler at the end of that key's bucket. -/
lemma getB_addB_same {κ : Type} [DecidableEq κ]
    (l : List (κ × List HandlerId)) (k : κ) (h : HandlerId) :
    getB (addB l k h) k = getB l k ++ [h] := by
  induction l with
  | nil => simp [addB, getB]
  | cons p rest ih =>
    obtain ⟨k', hs⟩ := p
    by_cases hk : k' = k
    · subst hk
      simp [addB, getB]
    · simp [addB, getB, hk, ih]

/-- Appending to one bucket leaves every other key's bucket unchanged. -/
lemma getB_addB_ne {κ : Type} [DecidableEq κ]
    (l : List (κ × List HandlerId)) (k k' : κ) (h : HandlerId) (hne : k' ≠ k) :
    getB (addB l k h) k' = getB l k' := by
  induction l with
  | nil => simp [addB, getB, Ne.symm hne]
  | cons p rest ih =>
    obtain ⟨k'', hs⟩ := p
    by_cases hk : k'' = k
    · subst hk
      simp [addB, getB, Ne.symm hne]
    · by_cases hq : k'' = k'
      · subst hq
        simp [addB, getB, hk]
      · simp [addB, getB, hk, hq, ih]

/-- The delivery loop, in closed form: the invocation trace is the
concatenation of each batched event's handler invocations (lock not held),
and the republished queue is the concatenation of what those handlers
publish. -/
lemma processBatch_spec (st : State) (pub : HandlerId → QueuedEvent → List QueuedEvent) :
    ∀ batch, processBatch st pub batch
      = (batch.flatMap
           (fun ev => (handlersFor st ev.type ev.filter).map (fun h => ⟨h, ev, false⟩)),
         batch.flatMap
           (fun ev => (handlersFor st ev.type ev.filter).flatMap (fun h => pub h ev))) := by
  intro batch
  induction batch with
  | nil => simp [processBatch]
  | cons ev rest ih => simp [processBatch, deliverEvent, ih]

/-- C4 amended: `Subscribe` with a NON-EMPTY filter registers the handler only
in the type+filter bucket (appended last, preserving registration order); the
global bucket is untouched.  A `PublishImmediate` of the same type with the
SAME filter then runs it after the previously subscribed handlers, and any
delivery with a different type or filter (including the empty filter) is
completely unaffected by the subscription. -/
theorem Subscribe_filter_only_filtered_bucket (st : State) (t : TypeTag) (f : String)
    (h : HandlerId) (hf : f ≠ "") :
    (Subscribe st t f h).handlers = st.handlers ∧
    getB (Subscribe st t f h).filteredHandlers (t, f)
      = getB st.filteredHandlers (t, f) ++ [h] ∧
    (∀ p prio, (PublishImmediate (Subscribe st t f h) p t prio f).map Invocation.handler
        = (PublishImmediate st p t prio f).map Invocation.handler ++ [h]) ∧
    (∀ t' f' p prio, ¬(t' = t ∧ f' = f) →
       PublishImmediate (Subscribe st t f h) p t' prio f'
         = PublishImmediate st p t' prio f') := by
  have hsub : Subscribe st t f h
      = { st with filteredHandlers := addB st.filteredHandlers (t, f) h } := by
    simp [Subscribe, hf]
  refine ⟨by rw [hsub], ?_, ?_, ?_⟩
  · rw [hsub]
    exact getB_addB_same st.filteredHandlers (t, f) h
  · intro p prio
    rw [hsub]
    simp only [PublishImmediate, handlersFor, if_neg hf, List.map_map]
    rw [getB_addB_same]
    simp [Function.comp_def, List.append_assoc]
  · intro t' f' p prio hne
    rw [hsub]
    by_cases hf' : f' = ""
    · subst hf'
      simp [PublishImmediate, handlersFor]
    · have hkey : (t', f') ≠ (t, f) := by
        intro hEq
        rw [Prod.mk.injEq] at hEq
        exact hne hEq
      simp only [PublishImmediate, handlersFor, if_neg hf']
      rw [getB_addB_ne _ _ _ _ hkey]

/-- Witness for `Subscribe_filter_only_filtered_bucket` on the empty bus,
type 0, filter `"f"`, handler 7. -/
theorem Subscribe_filter_only_filtered_bucket_witness :
    (Subscribe emptyBus 0 "f" 7).handlers = [] ∧
    getB (Subscribe emptyBus 0 "f" 7).filteredHandlers (0, "f") = [7] := by
  have H := Subscribe_filter_only_filtered_bucket emptyBus 0 "f" 7 (by decide)
  exact ⟨H.1, H.2.1⟩

/-- C4 counterexample: after subscribing handler 7 to type 0 with the
non-empty filter `"f"`, the type's GLOBAL bucket is still empty, and a
delivery of a type-0 event with a different filter (empty, or `"g"`, or a
queued drain with the empty filter) never invokes the handler — the claim
says the handler lands in the global bucket and is invoked for any filter. -/
theorem subscribe_filter_not_global_cex :
    getB (Subscribe emptyBus 0 "f" 7).handlers 0 = [] ∧
    PublishImmediate (Subscribe emptyBus 0 "f" 7) 1 0 1 "" = [] ∧
    PublishImmediate (Subscribe emptyBus 0 "f" 7) 1 0 1 "g" = [] ∧
    (ProcessEvents { Subscribe emptyBus 0 "f" 7 with eventQueue := [⟨1, 0, 1, ""⟩] }
       (fun _ _ => [])).1 = [] := by
  refine ⟨rfl, rfl, rfl, rfl⟩

/-- `popMax` never fails on a non-empty queue. -/
lemma popMax_eq_none_iff (q : List QueuedEvent) : popMax q = none ↔ q = [] := by
  cases q with
  | nil => simp [popMax]
  | cons e es =>
    simp only [popMax]
    cases h : popMax es with
    | none => simp
    | some p =>
      obtain ⟨m, rest⟩ := p
      by_cases hc : e.priority < m.priority <;> simp [hc]

/-- Popping returns a permutation: nothing is lost or duplicated. -/
lemma popMax_perm (q : List QueuedEvent) (e : QueuedEvent) (rest : List QueuedEvent)
    (h : popMax q = some (e, rest)) : q.Perm (e :: rest) := by
  induction q generalizing e rest with
  | nil => simp [popMax] at h
  | cons a as ih =>
    cases hp : popMax as with
    | none =>
      have heq : popMax (a :: as) = some (a, []) := by simp [popMax, hp]
      rw [heq] at h
      cases h
      have has : as = [] := (popMax_eq_none_iff as).mp hp
      subst has
      exact List.Perm.refl _
    | some p =>
      obtain ⟨m, r⟩ := p
      by_cases hc : a.priority < m.priority
      · have heq : popMax (a :: as) = some (m, a :: r) := by simp [popMax, hp, hc]
        rw [heq] at h
        rw [Option.some.injEq, Prod.mk.injEq] at h
        obtain ⟨h1, h2⟩ := h
        rw [← h1, ← h2]
        exact (List.Perm.cons a (ih m r hp)).trans (List.Perm.swap m a r)
      · have heq : popMax (a :: as) = some (a, as) := by simp [popMax, hp, hc]
        rw [heq] at h
        cases h
        exact List.Perm.refl _

/-- The popped element has maximal priority in the queue. -/
lemma popMax_max (q : List QueuedEvent) (e : QueuedEvent) (rest : List QueuedEvent)
    (h : popMax q = some (e, rest)) : ∀ x ∈ q, x.priority ≤ e.priority := by
  induction q generalizing e rest with
  | nil => simp [popMax] at h
  | cons a as ih =>
    cases hp : popMax as with
    | none =>
      have heq : popMax (a :: as) = some (a, []) := by simp [popMax, hp]
      rw [heq] at h
      cases h
      have has : as = [] := (popMax_eq_none_iff as).mp hp
      subst has
      intro x hx
      rcases List.mem_cons.mp hx with hxa | hxn
      · subst hxa
        exact le_refl _
      · exact absurd hxn (List.not_mem_nil x)
    | some p =>
      obtain ⟨m, r⟩ := p
      by_cases hc : a.priority < m.priority
      · have heq : popMax (a :: as) = some (m, a :: r) := by simp [popMax, hp, hc]
        rw [heq] at h
        rw [Option.some.injEq, Prod.mk.injEq] at h
        obtain ⟨h1, h2⟩ := h
        rw [← h1]
        intro x hx
        rcases List.mem_cons.mp hx with hxa | hxn
        · subst hxa
          exact le_of_lt hc
        · exact ih m r hp x hxn
      · have heq : popMax (a :: as) = some (a, as) := by simp [popMax, hp, hc]
        rw [heq] at h
        cases h
        intro x hx
        rcases List.mem_cons.mp hx with hxa | hxn
        · subst hxa
          exact le_refl _
        · exact le_trans (ih m r hp x hxn) (Nat.le_of_not_lt hc)

/-- The detach loop returns the queue's contents exactly once each, in
non-increasing priority order, whenever the fuel covers the queue length. -/
lemma drainGo_perm_sorted : ∀ fuel (q : List QueuedEvent), q.length ≤ fuel →
    (drainGo fuel q).Perm q ∧
    List.Pairwise (fun a b : QueuedEvent => b.priority ≤ a.priority) (drainGo fuel q) := by
  intro fuel
  induction fuel with
  | zero =>
    intro q hq
    have hq0 : q = [] := List.length_eq_zero.mp (Nat.le_zero.mp hq)
    subst hq0
    exact ⟨List.Perm.refl _, List.Pairwise.nil⟩
  | succ fuel ih =>
    intro q hq
    cases hp : popMax q with
    | none =>
      have hq0 : q = [] := (popMax_eq_none_iff q).mp hp
      subst hq0
      exact ⟨List.Perm.refl _, by simp [drainGo, popMax]⟩
    | some p =>
      obtain ⟨e, rest⟩ := p
      have hperm := popMax_perm q e rest hp
      have hlen : rest.length ≤ fuel := by
        have hl := hperm.length_eq
        simp at hl
        omega
      obtain ⟨ihp, ihs⟩ := ih rest hlen
      have hgo : drainGo (fuel + 1) q = e :: drainGo fuel rest := by
        simp [drainGo, hp]
      rw [hgo]
      constructor
      · exact (ihp.cons e).trans hperm.symm
      · refine List.Pairwise.cons ?_ ihs
        intro x hx
        have hxrest : x ∈ rest := ihp.mem_iff.mp hx
        have hxq : x ∈ q := hperm.symm.mem_iff.mp (List.mem_cons_of_mem _ hxrest)
        exact popMax_max q e rest hp x hxq

/-- C7: one `ProcessEvents` call processes a permutation of the whole pending
queue (each detached event exactly once) in non-increasing priority order, the
invocation trace follows that order, and for events queued Low, Critical,
Normal the processing order is Critical first, then Normal, then Low. -/
theorem ProcessEvents_priority_order :
    (∀ q : List QueuedEvent, (drainQueue q).Perm q ∧
       List.Pairwise (fun a b : QueuedEvent => b.priority ≤ a.priority) (drainQueue q)) ∧
    (∀ st pub, (ProcessEvents st pub).1
        = (drainQueue st.eventQueue).flatMap
            (fun ev => (handlersFor st ev.type ev.filter).map (fun h => ⟨h, ev, false⟩))) ∧
    drainQueue ((Publish (Publish (Publish emptyBus 1 0 "" 0) 2 0 "" 3) 3 0 "" 1).eventQueue)
      = [eCrit, eNorm, eLow] := by
  refine ⟨fun q => drainGo_perm_sorted q.length q (le_refl _), ?_, rfl⟩
  intro st pub
  simp [ProcessEvents, processBatch_spec]

/-- C8: no event published by a handler during a `ProcessEvents` pass is
delivered in that pass — invocations only carry events from the pre-call
queue, everything the handlers publish lands in the new pending queue, and
the next call processes exactly that queue.  Concretely: with one subscriber
that republishes on payload 1, the first call delivers only the original
event and leaves the republished one queued, and the second call delivers the
republished one. -/
theorem ProcessEvents_defers_published :
    (∀ st pub, ∀ inv ∈ (ProcessEvents st pub).1, inv.event ∈ st.eventQueue) ∧
    (∀ st pub, ∀ inv ∈ (ProcessEvents st pub).1,
       ∀ e ∈ pub inv.handler inv.event, e ∈ (ProcessEvents st pub).2.eventQueue) ∧
    (∀ st pub, (drainQueue (ProcessEvents st pub).2.eventQueue).Perm
       (ProcessEvents st pub).2.eventQueue) ∧
    ProcessEvents reentrySt reentryPub
      = ([⟨0, ⟨1, 0, 1, ""⟩, false⟩], { reentrySt with eventQueue := [⟨2, 0, 1, ""⟩] }) ∧
    ProcessEvents { reentrySt with eventQueue := [⟨2, 0, 1, ""⟩] } reentryPub
      = ([⟨0, ⟨2, 0, 1, ""⟩, false⟩], { reentrySt with eventQueue := [] }) := by
  refine ⟨?_, ?_, ?_, rfl, rfl⟩
  · intro st pub inv hinv
    have h1 : (ProcessEvents st pub).1
        = (drainQueue st.eventQueue).flatMap
            (fun ev => (handlersFor st ev.type ev.filter).map (fun h => ⟨h, ev, false⟩)) := by
      simp [ProcessEvents, processBatch_spec]
    rw [h1] at hinv
    obtain ⟨ev, hev, hmem⟩ := List.mem_flatMap.mp hinv
    obtain ⟨hh, hmemh, rfl⟩ := List.mem_map.mp hmem
    have hq := (drainGo_perm_sorted st.eventQueue.length st.eventQueue (le_refl _)).1
    exact hq.mem_iff.mp hev
  · intro st pub inv hinv e he
    have h1 : (ProcessEvents st pub).1
        = (drainQueue st.eventQueue).flatMap
            (fun ev => (handlersFor st ev.type ev.filter).map (fun h => ⟨h, ev, false⟩)) := by
      simp [ProcessEvents, processBatch_spec]
    have h2 : (ProcessEvents st pub).2.eventQueue
        = (drainQueue st.eventQueue).flatMap
            (fun ev => (handlersFor st ev.type ev.filter).flatMap (fun h => pub h ev)) := by
      simp [ProcessEvents, processBatch_spec]
    rw [h1] at hinv
    obtain ⟨ev, hev, hmem⟩ := List.mem_flatMap.mp hinv
    obtain ⟨hh, hmemh, rfl⟩ := List.mem_map.mp hmem
    rw [h2]
    exact List.mem_flatMap.mpr ⟨ev, hev, List.mem_flatMap.mpr ⟨hh, hmemh, he⟩⟩
  · intro st pub
    exact (drainGo_perm_sorted _ _ (le_refl _)).1

/-- Witness for `ProcessEvents_defers_published` at the concrete reentry
scenario. -/
theorem ProcessEvents_defers_published_witness :
    (⟨1, 0, 1, ""⟩ : QueuedEvent) ∈ reentrySt.eventQueue ∧
    (⟨2, 0, 1, ""⟩ : QueuedEvent) ∈ (ProcessEvents reentrySt reentryPub).2.eventQueue := by
  constructor
  · exact ProcessEvents_defers_published.1 reentrySt reentryPub
      ⟨0, ⟨1, 0, 1, ""⟩, false⟩ (by decide)
  · exact ProcessEvents_defers_published.2.1 reentrySt reentryPub
      ⟨0, ⟨1, 0, 1, ""⟩, false⟩ (by decide) ⟨2, 0, 1, ""⟩ (by decide)

/-- C10 amended: `ProcessEvents` never holds the bus mutex while a handler
runs (the queue is detached under the lock, delivery happens after the guard
closes), but `PublishImmediate` DOES hold the mutex across every handler it
invokes — its `lock_guard` spans the whole body — so re-entering the bus from
such a handler would self-deadlock on the non-recursive `std::mutex`. -/
theorem lock_scope_during_delivery :
    (∀ st pub, ∀ inv ∈ (ProcessEvents st pub).1, inv.lockHeld = false) ∧
    (∀ st p t prio f, ∀ inv ∈ PublishImmediate st p t prio f, inv.lockHeld = true) := by
  constructor
  · intro st pub inv hinv
    have h1 : (ProcessEvents st pub).1
        = (drainQueue st.eventQueue).flatMap
            (fun ev => (handlersFor st ev.type ev.filter).map (fun h => ⟨h, ev, false⟩)) := by
      simp [ProcessEvents, processBatch_spec]
    rw [h1] at hinv
    obtain ⟨ev, hev, hmem⟩ := List.mem_flatMap.mp hinv
    obtain ⟨hh, hmemh, rfl⟩ := List.mem_map.mp hmem
    rfl
  · intro st p t prio f inv hinv
    obtain ⟨hh, hmemh, rfl⟩ := List.mem_map.mp hinv
    rfl

/-- Witness for `lock_scope_during_delivery` at concrete invocations from
each delivery path. -/
theorem lock_scope_during_delivery_witness :
    (⟨5, ⟨9, 0, 1, ""⟩, true⟩ : Invocation).lockHeld = true ∧
    (⟨0, ⟨1, 0, 1, ""⟩, false⟩ : Invocation).lockHeld = false := by
  constructor
  · exact lock_scope_during_delivery.2 (Subscribe emptyBus 0 "" 5) 9 0 1 ""
      ⟨5, ⟨9, 0, 1, ""⟩, true⟩ (by decide)
  · exact lock_scope_during_delivery.1 reentrySt reentryPub
      ⟨0, ⟨1, 0, 1, ""⟩, false⟩ (by decide)

/-- C10 counterexample: with one global subscriber, `PublishImmediate` invokes
it with the mutex HELD — refuting the claim that no handler invocation of the
bus runs under the internal mutex. -/
theorem publishImmediate_holds_lock_cex :
    PublishImmediate (Subscribe emptyBus 0 "" 5) 9 0 1 ""
      = [⟨5, ⟨9, 0, 1, ""⟩, true⟩] ∧
    ((⟨5, ⟨9, 0, 1, ""⟩, true⟩ : Invocation).lockHeld ≠ false) := by
  refine ⟨rfl, by decide⟩

end EventSystem

/-! ## Theorems -/

namespace Linen

/-- C1: for the acyclic registry `{A, B(dep A)}` — built here through
`RegisterSystem`, which triggers the recomputation — the source computes the
EMPTY initialization order: the cycle-detection pass already put every system
into `visited`, which the topological `visit` pass shares, so every `visit`
call returns immediately and nothing is appended.  The claimed property (each
registered name exactly once, dependencies first) fails on the computed
order. -/
theorem calcInitOrder_shared_visited_bug :
    RegisterSystem emptySt ⟨"A", []⟩
      = .ok ({ emptySt with m_registeredSystems := [⟨"A", []⟩] }, true) ∧
    RegisterSystem { emptySt with m_registeredSystems := [⟨"A", []⟩] } ⟨"B", ["A"]⟩
      = .ok ({ emptySt with m_registeredSystems := demoReg }, true) ∧
    CalculateInitializationOrder demoReg = .ok [] ∧ ¬ SpecTopoOrder demoReg [] := by
  refine ⟨rfl, rfl, rfl, ?_⟩
  intro h
  have := h.1 ⟨"A", []⟩ (by simp [demoReg])
  simp [List.count] at this

/-- C2 counterexample: recomputation on `cyclicSt` detects the cycle, yet the
resulting initialization order is `[]`, NOT the prior order `["A"]` — the
order list is cleared at entry to `CalculateInitializationOrder`, so aborting
on a cycle leaves it empty rather than "unchanged". -/
theorem recompute_clears_prior_order_cex :
    detectPhase cyclicSt.m_registeredSystems cyclicSt.m_registeredSystems []
      = .ok (true, ["B", "A"]) ∧
    recomputeOrder cyclicSt = .ok { cyclicSt with m_initializationOrder := [] } ∧
    cyclicSt.m_initializationOrder = ["A"] ∧
    (["A"] : List String) ≠ [] := by
  refine ⟨rfl, rfl, rfl, by simp⟩

/-- C2 amended: when the recomputation's cycle-detection pass reports a cycle,
the recomputation aborts with the initialization order EMPTY — the order list
is cleared at entry, so the previously computed order is discarded, not
preserved. -/
theorem recompute_on_cycle_clears_order (st : LinenState) (v : List String)
    (h : detectPhase st.m_registeredSystems st.m_registeredSystems [] = .ok (true, v)) :
    recomputeOrder st = .ok { st with m_initializationOrder := [] } := by
  unfold recomputeOrder CalculateInitializationOrder
  rw [h]
  rfl

/-- Witness for `recompute_on_cycle_clears_order` at the concrete cyclic
state. -/
theorem recompute_on_cycle_clears_order_witness :
    recomputeOrder cyclicSt = .ok { cyclicSt with m_initializationOrder := [] } :=
  recompute_on_cycle_clears_order cyclicSt ["B", "A"] rfl

/-- C3 counterexample: loading `C` (chain `C → B → A`, nothing active)
initializes the direct dependency `B` and then `C` itself and reports success,
but never initializes the transitive dependency `A` — the loop does not
recurse, so `B` runs with its own dependency `A` inactive.  The claim's
"recursively (transitively, dependency-first)" fails. -/
theorem loadSystem_not_transitive_cex :
    LoadSystem transReg [] "C" = (["B", "C"], true, ["B", "C"]) ∧
    findSystem transReg "B" = some ⟨"B", ["A"]⟩ ∧
    "A" ∉ (["B", "C"] : List String) := by
  refine ⟨rfl, rfl, by decide⟩

/-- Membership is preserved by the map insert `addActive`. -/
lemma mem_addActive_iff (active : List String) (n x : String) :
    x ∈ addActive active n ↔ x ∈ active ∨ x = n := by
  unfold addActive
  by_cases h : n ∈ active
  · simp only [if_pos h]
    constructor
    · exact fun hx => Or.inl hx
    · rintro (hx | rfl)
      · exact hx
      · exact h
  · simp [if_neg h]

/-- A name is registered exactly when the checked lookup finds it. -/
lemma mem_regNames_iff (reg : Registry) (n : String) :
    n ∈ regNames reg ↔ ∃ s, findSystem reg n = some s := by
  constructor
  · intro h
    obtain ⟨s, hs, rfl⟩ := List.mem_map.mp h
    have : (findSystem reg s.name).isSome := by
      rw [findSystem, List.find?_isSome]
      exact ⟨s, hs, by simp⟩
    exact Option.isSome_iff_exists.mp this
  · rintro ⟨s, hs⟩
    rw [findSystem] at hs
    have hmem := List.mem_of_find?_eq_some hs
    have hname : (s.name == n) = true := by
      have hp := List.find?_some hs
      simpa using hp
    rw [regNames]
    exact List.mem_map.mpr ⟨s, hmem, by simpa using hname⟩

/-- Enlarging the visited set cannot increase the count of unvisited names. -/
lemma filter_notMem_length_le (l v v' : List String) (h : ∀ x ∈ v, x ∈ v') :
    (l.filter (fun x => decide (x ∉ v'))).length
      ≤ (l.filter (fun x => decide (x ∉ v))).length := by
  refine List.Sublist.length_le (List.monotone_filter_right l ?_)
  intro a ha
  simp only [decide_eq_true_eq] at ha ⊢
  exact fun hav => ha (h a hav)

/-- Visiting one more listed, unvisited name strictly shrinks the count. -/
lemma filter_notMem_cons_lt (l : List String) (n : String) (v : List String)
    (hn : n ∈ l) (hnv : n ∉ v) :
    (l.filter (fun x => decide (x ∉ n :: v))).length
      < (l.filter (fun x => decide (x ∉ v))).length := by
  induction l with
  | nil => exact absurd hn (List.not_mem_nil n)
  | cons a l ih =>
    by_cases han : a = n
    · subst han
      rw [List.filter_cons_of_neg (by simp), List.filter_cons_of_pos (by simpa using hnv)]
      have hmono := filter_notMem_length_le l v (a :: v) (fun x hx => List.mem_cons_of_mem _ hx)
      simp only [List.length_cons]
      omega
    · have hnl : n ∈ l := by
        rcases List.mem_cons.mp hn with h | h
        · exact absurd h.symm han
        · exact h
      by_cases hav : a ∈ v
      · rw [List.filter_cons_of_neg (by simp [hav]), List.filter_cons_of_neg (by simpa using hav)]
        exact ih hnl
      · have hanv : a ∉ n :: v := by
          intro hx
          rcases List.mem_cons.mp hx with h | h
          · exact han h
          · exact hav h
        rw [List.filter_cons_of_pos (by simpa using hanv),
          List.filter_cons_of_pos (by simpa using hav)]
        simp only [List.length_cons]
        exact Nat.succ_lt_succ (ih hnl)

/-- `unvis` is antitone in the visited set. -/
lemma unvis_mono (reg : Registry) (v v' : List String) (h : ∀ x ∈ v, x ∈ v') :
    unvis reg v' ≤ unvis reg v :=
  filter_notMem_length_le _ v v' h

/-- `unvis` strictly decreases when a registered, unvisited name is added. -/
lemma unvis_strict (reg : Registry) (n : String) (v : List String)
    (hn : n ∈ regNames reg) (hnv : n ∉ v) :
    unvis reg (n :: v) < unvis reg v :=
  filter_notMem_cons_lt _ n v hn hnv

/-- The measure is bounded by the registry size. -/
lemma unvis_le_length (reg : Registry) (v : List String) : unvis reg v ≤ reg.length := by
  have h1 := List.length_filter_le (fun x => decide (x ∉ v)) (regNames reg)
  simpa [unvis, regNames] using h1

/-- The `DetectCycle` dependency loop cannot fail when every dependency is
registered and the fuel dominates the measure (given the same for the
recursive calls). -/
lemma detectCycleStep_no_error (reg : Registry) (fuel : Nat)
    (IH : ∀ n v rs, n ∈ regNames reg → unvis reg v < fuel →
        ∃ b v', DetectCycle reg fuel n v rs = .ok (b, v') ∧
          (∀ x ∈ v, x ∈ v') ∧ (∀ x ∈ v', x ∈ v ∨ x ∈ regNames reg) ∧
          unvis reg v' ≤ unvis reg v) :
    ∀ ds v rs, (∀ d ∈ ds, d ∈ regNames reg) → unvis reg v < fuel →
      ∃ b v', detectCycleStep (DetectCycle reg fuel) ds v rs = .ok (b, v') ∧
        (∀ x ∈ v, x ∈ v') ∧ (∀ x ∈ v', x ∈ v ∨ x ∈ regNames reg) ∧
        unvis reg v' ≤ unvis reg v := by
  intro ds
  induction ds with
  | nil =>
    intro v rs _ _
    exact ⟨false, v, rfl, fun x hx => hx, fun x hx => Or.inl hx, le_refl _⟩
  | cons d ds ih =>
    intro v rs hds hlt
    obtain ⟨b, v1, hDC, hmono1, hrange1, hle1⟩ :=
      IH d v rs (hds d (List.mem_cons_self _ _)) hlt
    cases b with
    | true =>
      refine ⟨true, v1, ?_, hmono1, hrange1, hle1⟩
      simp only [detectCycleStep]
      rw [hDC]
      rfl
    | false =>
      obtain ⟨b2, v2, hStep, hmono2, hrange2, hle2⟩ :=
        ih v1 rs (fun x hx => hds x (List.mem_cons_of_mem _ hx)) (lt_of_le_of_lt hle1 hlt)
      refine ⟨b2, v2, ?_, fun x hx => hmono2 x (hmono1 x hx), ?_, le_trans hle2 hle1⟩
      · simp only [detectCycleStep]
        rw [hDC]
        exact hStep
      · intro x hx
        rcases hrange2 x hx with h1 | h2
        · exact hrange1 x h1
        · exact Or.inr h2

/-- `DetectCycle` cannot fail on a dependency-closed registry when the fuel
dominates the measure: the fuel `reg.length + 1` is adequate. -/
lemma DetectCycle_no_error (reg : Registry) (hc : ClosedDeps reg) :
    ∀ fuel, ∀ n v rs, n ∈ regNames reg → unvis reg v < fuel →
      ∃ b v', DetectCycle reg fuel n v rs = .ok (b, v') ∧
        (∀ x ∈ v, x ∈ v') ∧ (∀ x ∈ v', x ∈ v ∨ x ∈ regNames reg) ∧
        unvis reg v' ≤ unvis reg v := by
  intro fuel
  induction fuel with
  | zero =>
    intro n v rs _ hlt
    exact absurd hlt (Nat.not_lt_zero _)
  | succ fuel ih =>
    intro n v rs hn hlt
    by_cases hrs : n ∈ rs
    · exact ⟨true, v, by simp [DetectCycle, hrs], fun x hx => hx,
        fun x hx => Or.inl hx, le_refl _⟩
    · by_cases hv : n ∈ v
      · exact ⟨false, v, by simp [DetectCycle, hrs, hv], fun x hx => hx,
          fun x hx => Or.inl hx, le_refl _⟩
      · obtain ⟨s, hs⟩ := (mem_regNames_iff reg n).mp hn
        have hsmem : s ∈ reg := by
          rw [findSystem] at hs
          exact List.mem_of_find?_eq_some hs
        have hdeps : ∀ d ∈ s.deps, d ∈ regNames reg := hc s hsmem
        have hstrict := unvis_strict reg n v hn hv
        have hltn : unvis reg (n :: v) < fuel := by omega
        obtain ⟨b, v', hStep, hmono, hrange, hle⟩ :=
          detectCycleStep_no_error reg fuel ih s.deps (n :: v) (n :: rs) hdeps hltn
        refine ⟨b, v', ?_, ?_, ?_, ?_⟩
        · simp only [DetectCycle, if_neg hrs, if_neg hv, hs]
          exact hStep
        · exact fun x hx => hmono x (List.mem_cons_of_mem _ hx)
        · intro x hx
          rcases hrange x hx with h1 | h2
          · rcases List.mem_cons.mp h1 with h | h
            · exact Or.inr (by rw [h]; exact hn)
            · exact Or.inl h
          · exact Or.inr h2
        · exact le_trans hle (le_of_lt hstrict)

/-- The cycle-detection loop over the registered systems cannot fail on a
dependency-closed registry. -/
lemma detectPhase_no_error (reg : Registry) (hc : ClosedDeps reg) :
    ∀ l : List RPGSystem, (∀ s ∈ l, s ∈ reg) → ∀ v,
      ∃ b v', detectPhase reg l v = .ok (b, v') := by
  intro l
  induction l with
  | nil =>
    intro _ v
    exact ⟨false, v, rfl⟩
  | cons s rest ih =>
    intro hsub v
    have hn : s.name ∈ regNames reg :=
      List.mem_map.mpr ⟨s, hsub s (List.mem_cons_self _ _), rfl⟩
    have hlt : unvis reg v < reg.length + 1 := Nat.lt_succ_of_le (unvis_le_length reg v)
    obtain ⟨b, v1, hDC, -, -, -⟩ :=
      DetectCycle_no_error reg hc (reg.length + 1) s.name v [] hn hlt
    cases b with
    | true =>
      refine ⟨true, v1, ?_⟩
      simp only [detectPhase]
      rw [hDC]
      rfl
    | false =>
      obtain ⟨b2, v2, hrest⟩ := ih (fun x hx => hsub x (List.mem_cons_of_mem _ hx)) v1
      refine ⟨b2, v2, ?_⟩
      simp only [detectPhase]
      rw [hDC]
      exact hrest

/-- `CalculateInitializationOrder` completes without undefined behaviour on a
dependency-closed registry. -/
lemma calcInitOrder_no_error (reg : Registry) (hc : ClosedDeps reg) :
    ∃ o, CalculateInitializationOrder reg = .ok o := by
  obtain ⟨b, v, hdp⟩ := detectPhase_no_error reg hc reg (fun s hs => hs) []
  cases b with
  | true =>
    refine ⟨[], ?_⟩
    simp only [CalculateInitializationOrder]
    rw [hdp]
    rfl
  | false =>
    refine ⟨(visitPhase reg reg v []).2, ?_⟩
    simp only [CalculateInitializationOrder]
    rw [hdp]
    rfl

/-- C5: the dependency-closure precondition is exactly what keeps
`CalculateInitializationOrder` / `DetectCycle` (and hence `RegisterSystem`,
which triggers them) well-defined: on any registry whose dependency names are
all registered the computation returns a result, while registering a system
with an unregistered dependency name (`Z` here) runs
`m_registeredSystems["Z"]` inside `DetectCycle`, default-constructs a null
`unique_ptr` and dereferences it — undefined behaviour, with no
`MissingDependency`-style result returned at registration time. -/
theorem DetectCycle_requires_registered_deps :
    (∀ reg : Registry, ClosedDeps reg → ∃ o, CalculateInitializationOrder reg = .ok o) ∧
    CalculateInitializationOrder [⟨"A", ["Z"]⟩] = .error () ∧
    RegisterSystem emptySt ⟨"A", ["Z"]⟩ = .error () :=
  ⟨fun reg hc => calcInitOrder_no_error reg hc, rfl, rfl⟩

/-- Witness for `DetectCycle_requires_registered_deps` on the closed registry
`{A, B(dep A)}`. -/
theorem DetectCycle_requires_registered_deps_witness :
    ∃ o, CalculateInitializationOrder demoReg = .ok o :=
  DetectCycle_requires_registered_deps.1 demoReg (by unfold ClosedDeps; decide)

/-- C6 counterexample: at the reachable fresh state (nothing registered,
nothing active, empty order) the claim predicts a tick that only drains the
event bus, but `Linen::Update` still invokes `Update` on the three hard-coded
singleton systems — the tick ignores the active set and the computed order. -/
theorem update_ignores_active_set_cex :
    LinenUpdate (α := Unit) emptySt ()
      = [.updateCall "TestSystem" (), .updateCall "CharacterProgressionSystem" (),
         .updateCall "QuestSystem" (), .processEventsCall] ∧
    specUpdateTrace (α := Unit) emptySt () = [.processEventsCall] ∧
    LinenUpdate (α := Unit) emptySt () ≠ specUpdateTrace (α := Unit) emptySt () := by
  refine ⟨rfl, rfl, by decide⟩

/-- C6 amended: one call of the tick entry point `Linen::Update` invokes
`Update(deltaTime)` on the fixed singleton systems `TestSystem`,
`CharacterProgressionSystem`, `QuestSystem` in that source order — regardless
of the registry's active set and computed initialization order — and then
drains the event bus exactly once, as the final step. -/
theorem update_fixed_singletons_then_drain {α : Type} [DecidableEq α]
    (st : LinenState) (dt : α) :
    LinenUpdate st dt
      = [.updateCall "TestSystem" dt, .updateCall "CharacterProgressionSystem" dt,
         .updateCall "QuestSystem" dt, .processEventsCall] ∧
    (LinenUpdate st dt).count .processEventsCall = 1 ∧
    (LinenUpdate st dt).getLast? = some .processEventsCall := by
  refine ⟨rfl, ?_, rfl⟩
  simp [LinenUpdate, List.count_cons]

/-- Behaviour of the `LoadSystem` dependency loop: it preserves the active
set, succeeds exactly when every listed dependency is active or registered,
activates every listed dependency on success, appends only dependencies to
the `Initialize()` trace, and every module it initializes ends up active. -/
lemma loadDepsLoop_spec (reg : Registry) :
    ∀ ds active trace,
      (∀ x ∈ active, x ∈ (loadDepsLoop reg ds active trace).1) ∧
      ((loadDepsLoop reg ds active trace).2.1 = true ↔
        ∀ d ∈ ds, d ∈ active ∨ d ∈ regNames reg) ∧
      ((loadDepsLoop reg ds active trace).2.1 = true →
        ∀ d ∈ ds, d ∈ (loadDepsLoop reg ds active trace).1) ∧
      (∃ ex, (loadDepsLoop reg ds active trace).2.2 = trace ++ ex ∧ ∀ x ∈ ex, x ∈ ds) ∧
      (∀ x ∈ (loadDepsLoop reg ds active trace).2.2,
        x ∈ trace ∨ x ∈ (loadDepsLoop reg ds active trace).1) := by
  intro ds
  induction ds with
  | nil =>
    intro active trace
    refine ⟨fun x hx => hx, by simp [loadDepsLoop], by simp, ⟨[], by simp [loadDepsLoop]⟩,
      fun x hx => Or.inl hx⟩
  | cons d ds ih =>
    intro active trace
    by_cases hd : d ∈ active
    · have heq : loadDepsLoop reg (d :: ds) active trace = loadDepsLoop reg ds active trace := by
        simp [loadDepsLoop, hd]
      obtain ⟨ih1, ih2, ih3, ih4, ih5⟩ := ih active trace
      rw [heq]
      refine ⟨ih1, ?_, ?_, ?_, ih5⟩
      · rw [ih2]
        constructor
        · intro h d' hd'
          rcases List.mem_cons.mp hd' with rfl | hmem
          · exact Or.inl hd
          · exact h d' hmem
        · intro h d' hd'
          exact h d' (List.mem_cons_of_mem _ hd')
      · intro hok d' hd'
        rcases List.mem_cons.mp hd' with rfl | hmem
        · exact ih1 d' hd
        · exact ih3 hok d' hmem
      · obtain ⟨ex, hex, hsub⟩ := ih4
        exact ⟨ex, hex, fun x hx => List.mem_cons_of_mem _ (hsub x hx)⟩
    · cases hf : findSystem reg d with
      | some s =>
        have heq : loadDepsLoop reg (d :: ds) active trace
            = loadDepsLoop reg ds (addActive active d) (trace ++ [d]) := by
          simp [loadDepsLoop, hd, hf]
        have hdreg : d ∈ regNames reg := (mem_regNames_iff reg d).mpr ⟨s, hf⟩
        obtain ⟨ih1, ih2, ih3, ih4, ih5⟩ := ih (addActive active d) (trace ++ [d])
        rw [heq]
        have hsubA : ∀ x ∈ active, x ∈ addActive active d :=
          fun x hx => (mem_addActive_iff active d x).mpr (Or.inl hx)
        refine ⟨fun x hx => ih1 x (hsubA x hx), ?_, ?_, ?_, ?_⟩
        · rw [ih2]
          constructor
          · intro h d' hd'
            rcases List.mem_cons.mp hd' with rfl | hmem
            · exact Or.inr hdreg
            · rcases h d' hmem with hA | hR
              · rcases (mem_addActive_iff active d d').mp hA with hA' | rfl
                · exact Or.inl hA'
                · exact Or.inr hdreg
              · exact Or.inr hR
          · intro h d' hd'
            rcases h d' (List.mem_cons_of_mem _ hd') with hA | hR
            · exact Or.inl ((mem_addActive_iff active d d').mpr (Or.inl hA))
            · exact Or.inr hR
        · intro hok d' hd'
          rcases List.mem_cons.mp hd' with h | hmem
          · exact ih1 d' ((mem_addActive_iff active d d').mpr (Or.inr h))
          · exact ih3 hok d' hmem
        · obtain ⟨ex, hex, hsub⟩ := ih4
          refine ⟨d :: ex, by simpa using hex, ?_⟩
          intro x hx
          rcases List.mem_cons.mp hx with rfl | hmem
          · exact List.mem_cons_self _ _
          · exact List.mem_cons_of_mem _ (hsub x hmem)
        · intro x hx
          rcases ih5 x hx with htr | hact
          · rcases List.mem_append.mp htr with h1 | h2
            · exact Or.inl h1
            · have : x = d := by simpa using h2
              subst this
              exact Or.inr (ih1 x ((mem_addActive_iff active x x).mpr (Or.inr rfl)))
          · exact Or.inr hact
      | none =>
        have heq : loadDepsLoop reg (d :: ds) active trace = (active, false, trace) := by
          simp [loadDepsLoop, hd, hf]
        have hdreg : d ∉ regNames reg := by
          intro hmem
          obtain ⟨s, hs⟩ := (mem_regNames_iff reg d).mp hmem
          rw [hf] at hs
          exact Option.noConfusion hs
        rw [heq]
        refine ⟨fun x hx => hx, ?_, by simp, ⟨[], by simp⟩, fun x hx => Or.inl hx⟩
        simp only [show (false = true) = False by simp, false_iff]
        intro h
        rcases h d (List.mem_cons_self _ _) with hA | hR
        · exact hd hA
        · exact hdreg hR

/-- C3 amended: `LoadSystem` on a registered, not-yet-active system
initializes its not-yet-active DIRECT dependencies — one level only, with no
recursion into their own dependencies — before initializing the target; it
succeeds exactly when every direct dependency is active or registered; on
success the target's `Initialize()` is last and only dependencies precede it;
every module it initializes (also before a missing-dependency failure)
remains active; and already-active modules are never re-initialized (the
prior active set is preserved). -/
theorem LoadSystem_direct_deps_only (reg : Registry) (active : List String)
    (name : String) (s : RPGSystem)
    (hfind : findSystem reg name = some s) (hact : name ∉ active) :
    ((LoadSystem reg active name).2.1 = true ↔
       ∀ d ∈ s.deps, d ∈ active ∨ d ∈ regNames reg) ∧
    ((LoadSystem reg active name).2.1 = true →
       name ∈ (LoadSystem reg active name).1 ∧
       ∀ d ∈ s.deps, d ∈ (LoadSystem reg active name).1) ∧
    (∀ x ∈ active, x ∈ (LoadSystem reg active name).1) ∧
    (∀ x ∈ (LoadSystem reg active name).2.2, x ∈ (LoadSystem reg active name).1) ∧
    ((LoadSystem reg active name).2.1 = true →
       ∃ tr, (LoadSystem reg active name).2.2 = tr ++ [name] ∧ ∀ x ∈ tr, x ∈ s.deps) := by
  have hreg : name ∈ regNames reg := (mem_regNames_iff reg name).mpr ⟨s, hfind⟩
  obtain ⟨l1, l2, l3, l4, l5⟩ := loadDepsLoop_spec reg s.deps active []
  rcases hL : loadDepsLoop reg s.deps active [] with ⟨a', ok, tr⟩
  rw [hL] at l1 l2 l3 l4 l5
  simp only at l1 l2 l3 l4 l5
  have hLS : LoadSystem reg active name
      = if ok then (addActive a' name, true, tr ++ [name]) else (a', false, tr) := by
    simp [LoadSystem, hreg, hact, hfind, hL]
  cases ok with
  | true =>
    rw [if_pos rfl] at hLS
    rw [hLS]
    simp only []
    refine ⟨?_, ?_, ?_, ?_, ?_⟩
    · simpa using l2
    · intro _
      refine ⟨(mem_addActive_iff a' name name).mpr (Or.inr rfl), ?_⟩
      intro d hd
      exact (mem_addActive_iff a' name d).mpr (Or.inl (l3 rfl d hd))
    · intro x hx
      exact (mem_addActive_iff a' name x).mpr (Or.inl (l1 x hx))
    · intro x hx
      rcases List.mem_append.mp hx with h1 | h2
      · rcases l5 x h1 with h | h
        · exact absurd h (List.not_mem_nil x)
        · exact (mem_addActive_iff a' name x).mpr (Or.inl h)
      · have hxn : x = name := by simpa using h2
        rw [hxn]
        exact (mem_addActive_iff a' name name).mpr (Or.inr rfl)
    · intro _
      obtain ⟨ex, hex, hsub⟩ := l4
      simp only [List.nil_append] at hex
      exact ⟨tr, rfl, fun x hx => hsub x (hex ▸ hx)⟩
  | false =>
    rw [if_neg (by simp)] at hLS
    rw [hLS]
    simp only []
    refine ⟨by simpa using l2, by simp, l1, ?_, by simp⟩
    intro x hx
    rcases l5 x hx with h | h
    · exact absurd h (List.not_mem_nil x)
    · exact h

/-- Witness for `LoadSystem_direct_deps_only`: loading `C` on the chain
`C → B → A` succeeds (its only direct dependency `B` is registered). -/
theorem LoadSystem_direct_deps_only_witness :
    (LoadSystem transReg [] "C").2.1 = true :=
  ((LoadSystem_direct_deps_only transReg [] "C" ⟨"C", ["B"]⟩ rfl (by decide)).1).mpr
    (by decide)

/-- The dependent-systems loop reports `true` exactly when some active system
lists the name as a dependency (given every active name registered, so that
the `operator[]` lookups are defined). -/
lemma dependentCheck_ok_true_iff (reg : Registry) (name : String) :
    ∀ active : List String, (∀ a ∈ active, a ∈ regNames reg) →
      (dependentCheck reg active name = .ok true ↔
        ∃ a ∈ active, ∃ s, findSystem reg a = some s ∧ name ∈ s.deps) := by
  intro active
  induction active with
  | nil =>
    intro _
    constructor
    · intro h
      simp [dependentCheck] at h
    · rintro ⟨a, ha, -⟩
      exact absurd ha (List.not_mem_nil a)
  | cons a rest ih =>
    intro hclosed
    obtain ⟨s, hs⟩ := (mem_regNames_iff reg a).mp (hclosed a (List.mem_cons_self _ _))
    have hrest := ih (fun x hx => hclosed x (List.mem_cons_of_mem _ hx))
    by_cases hdep : name ∈ s.deps
    · have heq : dependentCheck reg (a :: rest) name = .ok true := by
        simp [dependentCheck, hs, hdep]
      rw [heq]
      simp only [true_iff]
      exact ⟨a, List.mem_cons_self _ _, s, hs, hdep⟩
    · have heq : dependentCheck reg (a :: rest) name = dependentCheck reg rest name := by
        simp [dependentCheck, hs, hdep]
      rw [heq, hrest]
      constructor
      · rintro ⟨x, hx, s', hs', hd'⟩
        exact ⟨x, List.mem_cons_of_mem _ hx, s', hs', hd'⟩
      · rintro ⟨x, hx, s', hs', hd'⟩
        rcases List.mem_cons.mp hx with h | hmem
        · subst h
          rw [hs] at hs'
          cases hs'
          exact absurd hd' hdep
        · exact ⟨x, hmem, s', hs', hd'⟩

/-- C9 amended: `UnloadSystem` checks, in order — unregistered name: failure
(no `Shutdown`); registered but NOT active: successful no-op regardless of any
active dependent (the not-active check precedes the dependent check); active:
failure without `Shutdown` exactly when some active system lists the name as
a dependency, and otherwise `Shutdown` plus removal from the active set. -/
theorem UnloadSystem_active_check_first (reg : Registry) (active : List String)
    (name : String) :
    (name ∉ regNames reg → UnloadSystem reg active name = .ok (active, false, false)) ∧
    (name ∈ regNames reg → name ∉ active →
       UnloadSystem reg active name = .ok (active, true, false)) ∧
    (name ∈ regNames reg → name ∈ active → ∀ b,
       dependentCheck reg active name = .ok b →
       UnloadSystem reg active name =
         .ok (if b then (active, false, false) else (active.erase name, true, true))) ∧
    ((∀ a ∈ active, a ∈ regNames reg) →
       (dependentCheck reg active name = .ok true ↔
         ∃ a ∈ active, ∃ s, findSystem reg a = some s ∧ name ∈ s.deps)) := by
  refine ⟨?_, ?_, ?_, dependentCheck_ok_true_iff reg name active⟩
  · intro h
    simp [UnloadSystem, h]
  · intro hreg hact
    simp [UnloadSystem, hreg, hact]
  · intro hreg hact b hdep
    obtain ⟨s, hs⟩ := (mem_regNames_iff reg name).mp hreg
    cases b with
    | true =>
      simp only [UnloadSystem, hreg, hact, hdep, hs, if_true]
      rfl
    | false =>
      simp only [UnloadSystem, hreg, hact, hdep, hs, if_false]
      rfl

/-- Witness for `UnloadSystem_active_check_first`: unloading the ACTIVE system
`B` (which the active `C` lists as a dependency) fails without `Shutdown`. -/
theorem UnloadSystem_active_check_first_witness :
    UnloadSystem transReg ["B", "C"] "B" = .ok (["B", "C"], false, false) :=
  (UnloadSystem_active_check_first transReg ["B", "C"] "B").2.2.1
    (by decide) (by decide) true rfl

/-- C9 counterexample: after `LoadSystem C` on the chain `C → B → A` the
active set is `{B, C}` and `A` is inactive although the ACTIVE system `B`
lists `A` as a dependency.  `UnloadSystem A` then returns success (a no-op,
no `Shutdown`), because the not-active check precedes the dependent check —
the claim predicts failure whenever some active module lists the name. -/
theorem unloadSystem_inactive_dependency_cex :
    (LoadSystem transReg [] "C").1 = ["B", "C"] ∧
    UnloadSystem transReg ["B", "C"] "A" = .ok (["B", "C"], true, false) ∧
    "B" ∈ (["B", "C"] : List String) ∧
    findSystem transReg "B" = some ⟨"B", ["A"]⟩ ∧
    "A" ∈ (⟨"B", ["A"]⟩ : RPGSystem).deps := by
  refine ⟨rfl, rfl, by decide, rfl, by decide⟩

end Linen
